import Mathlib

/-!
Verification of the drizzle journal reconciliation scripts:
`cleanup_drizzle_journal.py` (orphan pruner), `merge_drizzle_journals.py`
(cross-branch merger) and `renumber_drizzle_migrations.py` (disk
deduplicator).  The Python scripts are embedded shallowly: journal JSON
records become Lean structures with all fields present (drizzle journals
always carry `idx`, `version`, `when`, `tag`, `breakpoints`), filesystem
reads become oracle functions passed as parameters, and each script's
`main` becomes a pure function from its loaded inputs to its outputs
(exit code, files written, renames performed).
-/

namespace Drizzle

/-- One journal entry: mirrors the JSON object
`\x7b "idx": int, "version": str, "when": int, "tag": str, "breakpoints": bool \x7d`. -/
structure Entry where
  idx : Int
  version : String
  whenMs : Int
  tag : String
  breakpoints : Bool
deriving DecidableEq, Repr

/-- A journal file: `version` and `dialect` are passthrough strings. -/
structure Journal where
  version : String
  dialect : String
  entries : List Entry
deriving DecidableEq, Repr

/-! ### Decimal formatting, mirroring Python `str` and `f"..:04d"` -/

/-- The decimal digit character for a value below ten. -/
def digitChar : Nat → Char
  | 0 => '0'
  | 1 => '1'
  | 2 => '2'
  | 3 => '3'
  | 4 => '4'
  | 5 => '5'
  | 6 => '6'
  | 7 => '7'
  | 8 => '8'
  | 9 => '9'
  | _ => '*'

/-- Decimal digit accumulator: peels the last digit while fuel lasts.
The fuel is always at least the number, so the fuel-exhausted branch is
never reached on the arguments `natToDigits` supplies. -/
def natToDigitsAux : Nat → Nat → List Char → List Char
  | n, 0, acc => digitChar n :: acc
  | n, fuel + 1, acc =>
    if n < 10 then digitChar n :: acc
    else natToDigitsAux (n / 10) fuel (digitChar (n % 10) :: acc)

/-- Decimal digit list of a natural number (most significant first). -/
def natToDigits (n : Nat) : List Char :=
  natToDigitsAux n n []

/-- Python `str(n)` for a natural number. -/
def natRepr (n : Nat) : String :=
  String.mk (natToDigits n)

/-- Pad a string on the left with zeros up to width `w`. -/
def padLeftZeros (w : Nat) (s : String) : String :=
  String.mk (List.replicate (w - s.length) '0') ++ s

/-- Python `f"{i:04d}"` for an integer. -/
def intPad4 (i : Int) : String :=
  if i < 0 then "-" ++ padLeftZeros 3 (natRepr i.natAbs)
  else padLeftZeros 4 (natRepr i.toNat)

/-- Numeric value of a list of decimal digit characters
(the model of Python `int(...)` on the regex group). -/
def digitsToNat (cs : List Char) : Nat :=
  cs.foldl (fun a c => a * 10 + (c.toNat - 48)) 0

/-- Lexicographic comparison of character lists by code point, the
ordering Python uses on strings. -/
def charListLeB : List Char → List Char → Bool
  | [], _ => true
  | _ :: _, [] => false
  | c :: cs, d :: ds => if c < d then true else if d < c then false else charListLeB cs ds

/-- Model of `os.path.join` for the cases the scripts use. -/
def pathJoin (d f : String) : String :=
  if d = "" then f
  else if f.toList.take 1 = ['/'] then f
  else if d.toList.drop (d.toList.length - 1) = ['/'] then d ++ f
  else d ++ "/" ++ f

/-! ### Shared list helpers (Python `max(..., default=-1)`, `dict`) -/

/-- Python `max((...), default=-1)` over a list of integers. -/
def maxIntD (l : List Int) : Int :=
  (l.max?).getD (-1)

/-- Lookup in an association list (first binding wins), the model of
reading a Python `dict` that is only ever extended by `dictInsert`. -/
def assocLookup (m : List (String × String)) (k : String) : Option String :=
  match m with
  | [] => none
  | (k', v) :: rest => if k' = k then some v else assocLookup rest k

/-- Replace the value of every binding of key `k`. -/
def replaceAll (m : List (String × String)) (k v : String) : List (String × String) :=
  m.map (fun p => if p.1 = k then (k, v) else p)

/-- Python `d[k] = v` on an insertion-ordered `dict`: overwrite the
existing binding if the key is present, otherwise append it. -/
def dictInsert (m : List (String × String)) (k v : String) : List (String × String) :=
  if m.any (fun p => p.1 = k) then replaceAll m k v
  else m ++ [(k, v)]

/-- Ordering of entries by `idx` (Python `sort(key=lambda x: x.get('idx', 0))`). -/
def entryLe (a b : Entry) : Prop := a.idx ≤ b.idx

instance : DecidableRel entryLe := fun a b => Int.decLe a.idx b.idx

/-- Stable sort of entries by index. -/
def sortByIdx (l : List Entry) : List Entry :=
  l.insertionSort entryLe

/-! ### `cleanup_drizzle_journal.py` (Orphan Pruner) -/

/-- Outcome of one run of the pruner: exit code and the journal written
back (if any), plus the count of removed entries. -/
structure CleanupOutcome where
  exitCode : Int
  written : Option Journal
  removed : Nat
deriving Repr

/-- `main` of `cleanup_drizzle_journal.py`.  `load` is the result of the
`try: json.load` (`none` on absent/unreadable journal), `fileFound` is the
`os.path.exists` oracle. -/
def cleanupRun (load : Option Journal) (drizzleDir : String)
    (fileFound : String → Bool) : CleanupOutcome :=
  match load with
  | none => ⟨0, none, 0⟩
  | some j =>
    let valid := j.entries.filter
      (fun e => fileFound (pathJoin drizzleDir (e.tag ++ ".sql")))
    let removed := (j.entries.filter
      (fun e => ! fileFound (pathJoin drizzleDir (e.tag ++ ".sql")))).length
    if 0 < removed then ⟨0, some { j with entries := valid }, removed⟩
    else ⟨0, none, removed⟩

/-! ### `merge_drizzle_journals.py` (Cross-Branch Merger) -/

/-- The name part of a tag: `'_'.join(old_tag.split('_')[1:])` when the
tag contains an underscore (everything after the first `_`), otherwise
the whole tag. -/
def dropThroughUnderscore : List Char → List Char
  | [] => []
  | c :: cs => if c = '_' then cs else dropThroughUnderscore cs

/-- `name_part` computation of the merge script. -/
def namePartOf (tag : String) : String :=
  if '_' ∈ tag.toList then String.mk (dropThroughUnderscore tag.toList)
  else tag

/-- Entries of `ours` whose tag is not among the tags of `theirs`
(`pr_entries` in the script). -/
def featureOnly (theirs ours : Journal) : List Entry :=
  ours.entries.filter
    (fun e => decide (e.tag ∉ theirs.entries.map (fun b => b.tag)))

/-- Mutable state of the renumbering loop: `base_max_idx`, the rename
map and the `renumbered_entries` accumulator. -/
structure MergeState where
  baseMax : Int
  renameMap : List (String × String)
  out : List Entry
deriving Repr

/-- One iteration of `for i, entry in enumerate(pr_entries)`. -/
def mergeStep (theirsIdx : List Int) (st : MergeState) (ie : Nat × Entry) :
    MergeState :=
  if ie.2.idx ∈ theirsIdx then
    { baseMax := st.baseMax + 1 + (ie.1 : Int),
      renameMap := dictInsert st.renameMap ie.2.tag
        (intPad4 (st.baseMax + 1 + (ie.1 : Int)) ++ "_" ++ namePartOf ie.2.tag),
      out := st.out ++
        [⟨st.baseMax + 1 + (ie.1 : Int), ie.2.version, ie.2.whenMs,
          intPad4 (st.baseMax + 1 + (ie.1 : Int)) ++ "_" ++ namePartOf ie.2.tag,
          ie.2.breakpoints⟩] }
  else
    { st with out := st.out ++ [ie.2] }

/-- The loop of the merge script run to completion. -/
def mergeState (theirs ours : Journal) : MergeState :=
  ((featureOnly theirs ours).enum).foldl
    (mergeStep (theirs.entries.map (fun e => e.idx)))
    ⟨maxIntD (theirs.entries.map (fun e => e.idx)), [], []⟩

/-- `main` of `merge_drizzle_journals.py` after both journals loaded:
returns the merged journal and the rename map.  When there are no
PR-specific entries the script copies the base journal file verbatim and
writes an empty rename map. -/
def mergeJournals (theirs ours : Journal) : Journal × List (String × String) :=
  if featureOnly theirs ours = [] then (theirs, [])
  else
    ({ version := theirs.version, dialect := theirs.dialect,
       entries := sortByIdx (theirs.entries ++ (mergeState theirs ours).out) },
     (mergeState theirs ours).renameMap)

/-- Outcome of the merge script process: exit code plus the journal and
rename map written to `/tmp`. -/
structure MergeOutcome where
  exitCode : Int
  merged : Option Journal
  renameMap : Option (List (String × String))
deriving Repr

/-- The merge script including its `try/except` around loading the two
journals: a failed load exits with code 1 and writes nothing. -/
def mergeRun (load : Option (Journal × Journal)) : MergeOutcome :=
  match load with
  | none => ⟨1, none, none⟩
  | some jj => ⟨0, some (mergeJournals jj.1 jj.2).1, some (mergeJournals jj.1 jj.2).2⟩

/-! ### `renumber_drizzle_migrations.py` (Disk Deduplicator) -/

/-- A migration file name parsed by `re.match(r'^(\d+)_(.+)\.sql$', f)`:
the full filename, the tag (filename without `.sql`), the name group and
the numeric prefix. -/
structure FileInfo where
  file : String
  tag : String
  name : String
  num : Nat
deriving DecidableEq, Repr

/-- `f.endswith('.sql')`. -/
def isSqlName (s : String) : Bool :=
  decide (4 ≤ s.toList.length ∧
    s.toList.drop (s.toList.length - 4) = ['.', 's', 'q', 'l'])

/-- Parse a migration filename: the regex `^(\d+)_(.+)\.sql$`
(a maximal nonempty run of leading digits, an underscore, a nonempty
name, the `.sql` suffix). -/
def parseSqlFile (s : String) : Option FileInfo :=
  if 4 ≤ s.toList.length ∧ s.toList.drop (s.toList.length - 4) = ['.', 's', 'q', 'l'] then
    match (s.toList.take (s.toList.length - 4)).takeWhile Char.isDigit,
          (s.toList.take (s.toList.length - 4)).dropWhile Char.isDigit with
    | [], _ => none
    | _ :: _, '_' :: nameCs =>
      if nameCs = [] then none
      else some ⟨s, String.mk (s.toList.take (s.toList.length - 4)),
        String.mk nameCs,
        digitsToNat ((s.toList.take (s.toList.length - 4)).takeWhile Char.isDigit)⟩
    | _ :: _, _ => none
  else none

/-- Ordering of strings (Python string comparison). -/
def strLe (a b : String) : Prop := charListLeB a.toList b.toList = true

instance : DecidableRel strLe :=
  fun a b => inferInstanceAs (Decidable (charListLeB a.toList b.toList = true))

/-- `sql_files.sort()`. -/
def sortStrings (l : List String) : List String :=
  l.insertionSort strLe

/-- Ordering of parsed files by filename
(`sorted(not_in_journal, key=lambda x: x['file'])`). -/
def fileLe (a b : FileInfo) : Prop := charListLeB a.file.toList b.file.toList = true

instance : DecidableRel fileLe :=
  fun a b => inferInstanceAs (Decidable (charListLeB a.file.toList b.file.toList = true))

/-- Stable sort of parsed files by filename. -/
def sortByFile (l : List FileInfo) : List FileInfo :=
  l.insertionSort fileLe

/-- Ordering of numbers, for `sorted(by_number.keys())`. -/
def natLe (a b : Nat) : Prop := a ≤ b

instance : DecidableRel natLe := fun a b => Nat.decLe a b

/-- `sorted(...)` on a list of numbers. -/
def sortNats (l : List Nat) : List Nat :=
  l.insertionSort natLe

/-- The parsed migration files, in sorted filename order
(`sql_files.sort()` followed by the regex loop). -/
def parsedFiles (listing : List String) : List FileInfo :=
  (sortStrings (listing.filter isSqlName)).filterMap parseSqlFile

/-- `by_number[num]`: files sharing a numeric prefix, in listing order. -/
def byNumber (files : List FileInfo) (n : Nat) : List FileInfo :=
  files.filter (fun f => decide (f.num = n))

/-- `sorted(by_number.keys())`. -/
def numsSorted (files : List FileInfo) : List Nat :=
  sortNats ((files.map (fun f => f.num)).dedup)

/-- `max_num = max(by_number.keys()) if by_number else -1`. -/
def diskMax (files : List FileInfo) : Int :=
  maxIntD (files.map (fun f => (f.num : Int)))

/-- The tags registered in the journal. -/
def journalTagsOf (j : Journal) : List String :=
  j.entries.map (fun e => e.tag)

/-- `max_journal_idx = max((e.get('idx', 0) for e in entries), default=-1)`. -/
def maxJournalIdx (j : Journal) : Int :=
  maxIntD (j.entries.map (fun e => e.idx))

/-- `recent_threshold = max(max_num - 5, max_journal_idx - 2, 0)`. -/
def recentThreshold (j : Journal) (files : List FileInfo) : Int :=
  max (max (diskMax files - 5) (maxJournalIdx j - 2)) 0

/-- Read-only context of one deduplicator run: the two directories and
the filesystem oracles (`os.path.exists` on snapshots, `os.path.getmtime`
after a move). -/
structure DedupCtx where
  drizzleDir : String
  metaDir : String
  snapFound : String → Bool
  mtime : String → Int

/-- One rename performed by the deduplicator: old filename, new
filename, the new tag and the new numeric index. -/
structure RenameOp where
  oldFile : String
  oldTag : String
  newFile : String
  newTag : String
  newNum : Int
deriving DecidableEq, Repr

/-- Mutable state of the deduplication pass: `max_num`, the renames and
snapshot renames performed so far, `new_entries` and `changes_made`. -/
structure DedupState where
  maxNum : Int
  renames : List RenameOp
  snapRenames : List (String × String)
  newEntries : List Entry
  changed : Bool
deriving Repr

/-- The journal entry appended for one rename:
`{'idx': max_num, 'version': '7', 'when': getmtime(new_path)*1000,
'tag': new_tag, 'breakpoints': True}`. -/
def entryOfOp (ctx : DedupCtx) (op : RenameOp) : Entry :=
  ⟨op.newNum, "7", ctx.mtime (pathJoin ctx.drizzleDir op.newFile), op.newTag, true⟩

/-- The rename operation for file `f` when `max_num` currently holds
`m`: `max_num += 1; new_tag = f"{max_num:04d}_{name}"; new_file = f"{new_tag}.sql"`. -/
def mkOp (m : Int) (f : FileInfo) : RenameOp :=
  ⟨f.file, f.tag, (intPad4 (m + 1) ++ "_" ++ f.name) ++ ".sql",
    intPad4 (m + 1) ++ "_" ++ f.name, m + 1⟩

/-- Renumber one file to the next available number: the body shared by
both renumbering branches of the script (file rename, optional snapshot
rename, new journal entry, `changes_made = True`). -/
def renumberFile (ctx : DedupCtx) (st : DedupState) (f : FileInfo) : DedupState :=
  { maxNum := st.maxNum + 1,
    renames := st.renames ++ [mkOp st.maxNum f],
    snapRenames := st.snapRenames ++
      (if ctx.metaDir ≠ "" ∧ ctx.snapFound (pathJoin ctx.metaDir (f.tag ++ ".json")) then
        [(f.tag ++ ".json", (mkOp st.maxNum f).newTag ++ ".json")]
      else []),
    newEntries := st.newEntries ++ [entryOfOp ctx (mkOp st.maxNum f)],
    changed := true }

/-- The list of files the loop body renumbers at number `n`: nothing
below the recent threshold or when the group has at most one file;
every unregistered file when registered and unregistered files coexist;
all but the alphabetically first when no file is registered; nothing
when all files are registered. -/
def renumberList (thr : Int) (files : List FileInfo) (journalTags : List String)
    (n : Nat) : List FileInfo :=
  if (n : Int) < thr then []
  else
    if 1 < (byNumber files n).length then
      if (byNumber files n).filter (fun f => decide (f.tag ∉ journalTags)) ≠ [] ∧
         (byNumber files n).filter (fun f => decide (f.tag ∈ journalTags)) ≠ [] then
        (byNumber files n).filter (fun f => decide (f.tag ∉ journalTags))
      else if 1 < ((byNumber files n).filter (fun f => decide (f.tag ∉ journalTags))).length then
        (sortByFile ((byNumber files n).filter (fun f => decide (f.tag ∉ journalTags)))).drop 1
      else []
    else []

/-- One iteration of `for num in sorted(by_number.keys())`. -/
def processNum (ctx : DedupCtx) (thr : Int) (files : List FileInfo)
    (journalTags : List String) (st : DedupState) (n : Nat) : DedupState :=
  (renumberList thr files journalTags n).foldl (renumberFile ctx) st

/-- The deduplication loop run to completion. -/
def dedupState (j : Journal) (listing : List String) (ctx : DedupCtx) : DedupState :=
  (numsSorted (parsedFiles listing)).foldl
    (processNum ctx (recentThreshold j (parsedFiles listing)) (parsedFiles listing)
      (journalTagsOf j))
    ⟨diskMax (parsedFiles listing), [], [], [], false⟩

/-- Outcome of one run of `renumber_drizzle_migrations.py`. -/
structure RenumberOutcome where
  exitCode : Int
  renames : List RenameOp
  snapRenames : List (String × String)
  newEntries : List Entry
  finalJournal : Option Journal
  wrote : Bool
deriving Repr

/-- `main` of `renumber_drizzle_migrations.py`: a failed journal load
exits with code 1; an empty `.sql` listing returns early; otherwise the
pass runs and the journal is rewritten only when entries were added. -/
def renumberRun (load : Option Journal) (listing : List String)
    (ctx : DedupCtx) : RenumberOutcome :=
  match load with
  | none => ⟨1, [], [], [], none, false⟩
  | some j =>
    if sortStrings (listing.filter isSqlName) = [] then
      ⟨0, [], [], [], some j, false⟩
    else
      ⟨0, (dedupState j listing ctx).renames,
        (dedupState j listing ctx).snapRenames,
        (dedupState j listing ctx).newEntries,
        some (if (dedupState j listing ctx).newEntries = [] then j
          else { j with
            entries := sortByIdx (j.entries ++ (dedupState j listing ctx).newEntries) }),
        decide ((dedupState j listing ctx).newEntries ≠ [])⟩

/-! ### Concrete inputs used by counterexamples and witnesses -/

/-- A base journal with indices 0 and 1. -/
def jBase01 : Journal :=
  ⟨"7", "postgresql",
    [⟨0, "7", 0, "0000_a", true⟩, ⟨1, "7", 0, "0001_b", true⟩]⟩

/-- A feature journal whose two entries are new tags at indices 0 and 1,
both colliding with `jBase01`. -/
def jFeatConflicts : Journal :=
  ⟨"7", "postgresql",
    [⟨0, "7", 0, "0000_c", true⟩, ⟨1, "7", 0, "0001_d", true⟩]⟩

/-- A base journal with the single index 0. -/
def jBase0 : Journal :=
  ⟨"7", "postgresql", [⟨0, "7", 0, "0000_a", true⟩]⟩

/-- A feature journal with a non-conflicting entry at index 2 followed
by an entry colliding with base index 0. -/
def jFeatKeptConflict : Journal :=
  ⟨"7", "postgresql",
    [⟨2, "7", 0, "0002_b", true⟩, ⟨0, "7", 0, "0000_c", true⟩]⟩

/-- A feature journal with one new tag occupying base index 0. -/
def jFeatSameSlot : Journal :=
  ⟨"7", "postgresql", [⟨0, "7", 0, "0000_b", true⟩]⟩

/-- A feature journal whose single new entry has a tag with no
underscore. -/
def jFeatBare : Journal :=
  ⟨"7", "postgresql", [⟨0, "7", 0, "abc", true⟩]⟩

/-- A deduplicator context with no snapshot directory and a constant
mtime oracle. -/
def ctxPlain : DedupCtx := ⟨".", "", fun _ => false, fun _ => 0⟩

/-- The empty journal. -/
def jEmpty : Journal := ⟨"7", "postgresql", []⟩

/-! ### Claim theorems -/

/-- C1.  The merger is claimed to assign conflicting feature-only
entries the next free index from `baseMaxIndex + 1` onward with no gaps.
Evaluating the script on a base journal with maximum index 1 and two
conflicting feature-only entries shows the entries receive indices 2 and
4 (the loop computes `base_max_idx + 1 + i` after also advancing
`base_max_idx`, double-counting), not the contiguous 2 and 3 the claim
describes. -/
theorem merge_renumber_gap_concrete :
    ((mergeJournals jBase01 jFeatConflicts).1.entries.map (fun e => e.idx))
      = [0, 1, 2, 4] ∧
    (mergeJournals jBase01 jFeatConflicts).2
      = [("0000_c", "0002_c"), ("0001_d", "0004_d")] ∧
    maxIntD (jBase01.entries.map (fun e => e.idx)) = 1 := by
  refine ⟨by decide, by decide, by decide⟩

/-- C2.  Journals produced by the merger are claimed to have pairwise
distinct indices.  On a base journal occupying index 0 and a feature
journal holding a kept entry at index 2 followed by a conflicting entry,
the conflicting entry is renumbered to index 2 as well, so the merged
journal contains a duplicate index. -/
theorem merge_duplicate_index_concrete :
    ((mergeJournals jBase0 jFeatKeptConflict).1.entries.map (fun e => e.idx))
      = [0, 2, 2] ∧
    ¬ ((mergeJournals jBase0 jFeatKeptConflict).1.entries.map
        (fun e => e.idx)).Nodup := by
  refine ⟨by decide, by decide⟩

/-- C3 counterexample.  The merged journal's tags are claimed to be a
superset of the union of the input journals' tags, but a renumbered
entry's old tag ("0000_b", present in the feature journal) is absent
from the merged journal, which records it only in the rename map. -/
theorem merge_tag_lost_concrete :
    "0000_b" ∈ jFeatSameSlot.entries.map (fun e => e.tag) ∧
    "0000_b" ∉ (mergeJournals jBase0 jFeatSameSlot).1.entries.map
      (fun e => e.tag) := by
  refine ⟨by decide, by decide⟩

/-- C4 counterexample.  The claim says a missing or unreadable journal
is a silent success no-op for the disk deduplicator, but
`renumber_drizzle_migrations.py` exits with code 1 in that case. -/
theorem renumber_missing_journal_fails :
    (renumberRun none [] ctxPlain).exitCode = 1 ∧
    ¬ (renumberRun none [] ctxPlain).exitCode = 0 := by
  refine ⟨rfl, by decide⟩

/-- C4 (amended).  When the primary journal input is absent or
unreadable, the orphan pruner exits successfully making no changes,
while both the cross-branch merger and the disk deduplicator fail with
exit code 1, writing nothing and performing no renames. -/
theorem missing_journal_exit_behavior (dir : String) (fileFound : String → Bool)
    (listing : List String) (ctx : DedupCtx) :
    cleanupRun none dir fileFound = ⟨0, none, 0⟩ ∧
    (renumberRun none listing ctx).exitCode = 1 ∧
    (renumberRun none listing ctx).renames = [] ∧
    (renumberRun none listing ctx).finalJournal = none ∧
    (renumberRun none listing ctx).wrote = false ∧
    mergeRun none = ⟨1, none, none⟩ :=
  ⟨rfl, rfl, rfl, rfl, rfl, rfl⟩

/-- C5 counterexample.  A conflicting feature-only entry whose tag
`"abc"` has no underscore is claimed to be rebuilt with an empty name
suffix (new tag `"0001_"`); the script instead keeps the whole old tag
as the name part, producing `"0001_abc"`. -/
theorem merge_no_underscore_concrete :
    assocLookup (mergeJournals jBase0 jFeatBare).2 "abc" = some "0001_abc" ∧
    ¬ assocLookup (mergeJournals jBase0 jFeatBare).2 "abc" = some "0001_" := by
  refine ⟨by decide, by decide⟩

/-- C7.  When the feature journal contains no feature-only entries, the
merger returns the base journal unchanged together with an empty rename
map. -/
theorem merge_empty_feature_only (theirs ours : Journal)
    (h : featureOnly theirs ours = []) :
    mergeJournals theirs ours = (theirs, []) := by
  simp [mergeJournals, h]

/-- Witness for C7 at `feature = base`. -/
theorem merge_empty_feature_only_witness :
    featureOnly jBase01 jBase01 = [] ∧
    mergeJournals jBase01 jBase01 = (jBase01, []) :=
  ⟨by decide, merge_empty_feature_only jBase01 jBase01 (by decide)⟩

/-- The pruner writes back exactly when some entry's `.sql` file is
missing (helper for the C9 theorem). -/
theorem cleanup_removed_pos_iff (j : Journal) (dir : String)
    (fileFound : String → Bool) :
    0 < (j.entries.filter
        (fun e => ! fileFound (pathJoin dir (e.tag ++ ".sql")))).length ↔
      ∃ e ∈ j.entries, fileFound (pathJoin dir (e.tag ++ ".sql")) = false := by
  constructor
  · intro hp
    obtain ⟨e, he⟩ := List.length_pos_iff_exists_mem.mp hp
    rw [List.mem_filter] at he
    exact ⟨e, he.1, by simpa using he.2⟩
  · rintro ⟨e, he, hff⟩
    exact List.length_pos_iff_exists_mem.mpr
      ⟨e, List.mem_filter.mpr ⟨he, by simp [hff]⟩⟩

/-- C9.  The orphan pruner persists the filtered journal exactly when
at least one entry was removed; when every entry's tag has a matching
`.sql` file the journal is left untouched. -/
theorem cleanup_write_iff_orphan (j : Journal) (dir : String)
    (fileFound : String → Bool) :
    ((cleanupRun (some j) dir fileFound).written ≠ none ↔
      ∃ e ∈ j.entries, fileFound (pathJoin dir (e.tag ++ ".sql")) = false) ∧
    ((∀ e ∈ j.entries, fileFound (pathJoin dir (e.tag ++ ".sql")) = true) →
      (cleanupRun (some j) dir fileFound).written = none) := by
  by_cases h : 0 < (j.entries.filter
      (fun e => ! fileFound (pathJoin dir (e.tag ++ ".sql")))).length
  · refine ⟨iff_of_true (by simp [cleanupRun, h])
      ((cleanup_removed_pos_iff j dir fileFound).mp h), ?_⟩
    intro hall
    exfalso
    obtain ⟨e, he, hff⟩ := (cleanup_removed_pos_iff j dir fileFound).mp h
    rw [hall e he] at hff
    exact Bool.noConfusion hff
  · refine ⟨iff_of_false (by simp [cleanupRun, h])
      (fun hex => h ((cleanup_removed_pos_iff j dir fileFound).mpr hex)), ?_⟩
    intro _
    simp [cleanupRun, h]

/-- Witness for C9: with no files on disk, the pruner writes the
filtered journal back. -/
theorem cleanup_write_iff_orphan_witness :
    (cleanupRun (some jBase0) "." (fun _ => false)).written ≠ none :=
  (cleanup_write_iff_orphan jBase0 "." (fun _ => false)).1.mpr
    ⟨⟨0, "7", 0, "0000_a", true⟩, by decide, rfl⟩

/-! ### Lemmas about the rename-map dictionary -/

theorem assocLookup_cons (pk pv : String) (rest : List (String × String))
    (k : String) :
    assocLookup ((pk, pv) :: rest) k
      = if pk = k then some pv else assocLookup rest k := rfl

theorem replaceAll_cons (pk pv : String) (rest : List (String × String))
    (k v : String) :
    replaceAll ((pk, pv) :: rest) k v
      = (if pk = k then (k, v) else (pk, pv)) :: replaceAll rest k v := rfl

theorem assocLookup_replaceAll_ne (m : List (String × String)) (k v k' : String)
    (h : k' ≠ k) : assocLookup (replaceAll m k v) k' = assocLookup m k' := by
  induction m with
  | nil => rfl
  | cons p rest ih =>
    rcases p with ⟨pk, pv⟩
    rw [replaceAll_cons]
    by_cases hp : pk = k
    · rw [if_pos hp, assocLookup_cons, assocLookup_cons,
        if_neg (fun hkk => h hkk.symm), if_neg (by rw [hp]; exact fun hkk => h hkk.symm)]
      exact ih
    · rw [if_neg hp, assocLookup_cons, assocLookup_cons]
      by_cases hq : pk = k'
      · rw [if_pos hq, if_pos hq]
      · rw [if_neg hq, if_neg hq]
        exact ih

theorem assocLookup_replaceAll_self (m : List (String × String)) (k v : String)
    (h : m.any (fun p => p.1 = k) = true) :
    assocLookup (replaceAll m k v) k = some v := by
  induction m with
  | nil => simp at h
  | cons p rest ih =>
    rcases p with ⟨pk, pv⟩
    rw [replaceAll_cons]
    by_cases hp : pk = k
    · rw [if_pos hp, assocLookup_cons, if_pos rfl]
    · rw [if_neg hp, assocLookup_cons, if_neg hp]
      apply ih
      simp only [List.any_cons] at h
      rcases Bool.or_eq_true_iff.mp h with h1 | h2
      · exact absurd (of_decide_eq_true h1) hp
      · exact h2

theorem assocLookup_eq_none_of_not_any (m : List (String × String)) (k : String)
    (h : m.any (fun p => p.1 = k) = false) : assocLookup m k = none := by
  induction m with
  | nil => rfl
  | cons p rest ih =>
    rcases p with ⟨pk, pv⟩
    simp only [List.any_cons, Bool.or_eq_false_iff] at h
    rw [assocLookup_cons, if_neg (of_decide_eq_false h.1)]
    exact ih h.2

theorem assocLookup_append_of_none (m1 m2 : List (String × String)) (k : String)
    (h : assocLookup m1 k = none) :
    assocLookup (m1 ++ m2) k = assocLookup m2 k := by
  induction m1 with
  | nil => rfl
  | cons p rest ih =>
    rcases p with ⟨pk, pv⟩
    rw [assocLookup_cons] at h
    rw [List.cons_append, assocLookup_cons]
    by_cases hp : pk = k
    · rw [if_pos hp] at h; exact absurd h (by simp)
    · rw [if_neg hp] at h ⊢
      exact ih h

theorem assocLookup_dictInsert_self (m : List (String × String)) (k v : String) :
    assocLookup (dictInsert m k v) k = some v := by
  unfold dictInsert
  split
  · next h => exact assocLookup_replaceAll_self m k v h
  · next h =>
    rw [assocLookup_append_of_none m [(k, v)] k
      (assocLookup_eq_none_of_not_any m k (Bool.not_eq_true _ ▸ h)),
      assocLookup_cons, if_pos rfl]

theorem assocLookup_append_single_ne (m : List (String × String)) (k v k' : String)
    (h : k' ≠ k) : assocLookup (m ++ [(k, v)]) k' = assocLookup m k' := by
  induction m with
  | nil =>
    rw [List.nil_append, assocLookup_cons, if_neg (fun hkk => h hkk.symm)]
  | cons p rest ih =>
    rcases p with ⟨pk, pv⟩
    rw [List.cons_append, assocLookup_cons, assocLookup_cons]
    by_cases hq : pk = k'
    · rw [if_pos hq, if_pos hq]
    · rw [if_neg hq, if_neg hq]
      exact ih

theorem assocLookup_dictInsert_ne (m : List (String × String)) (k v k' : String)
    (h : k' ≠ k) : assocLookup (dictInsert m k v) k' = assocLookup m k' := by
  unfold dictInsert
  split
  · exact assocLookup_replaceAll_ne m k v k' h
  · exact assocLookup_append_single_ne m k v k' h

theorem keys_replaceAll (m : List (String × String)) (k v : String) :
    (replaceAll m k v).map Prod.fst = m.map Prod.fst := by
  induction m with
  | nil => rfl
  | cons p rest ih =>
    rcases p with ⟨pk, pv⟩
    rw [replaceAll_cons, List.map_cons, List.map_cons, ih]
    by_cases hp : pk = k
    · rw [if_pos hp, hp]
    · rw [if_neg hp]

theorem keys_dictInsert_subset (m : List (String × String)) (k v k' : String)
    (h : k' ∈ (dictInsert m k v).map Prod.fst) :
    k' ∈ m.map Prod.fst ∨ k' = k := by
  unfold dictInsert at h
  split at h
  · rw [keys_replaceAll] at h; exact Or.inl h
  · rw [List.map_append] at h
    rcases List.mem_append.mp h with h1 | h2
    · exact Or.inl h1
    · simp at h2; exact Or.inr h2

theorem keys_dictInsert_mono (m : List (String × String)) (k v k' : String)
    (h : k' ∈ m.map Prod.fst) : k' ∈ (dictInsert m k v).map Prod.fst := by
  unfold dictInsert
  split
  · rw [keys_replaceAll]; exact h
  · rw [List.map_append]; exact List.mem_append_left _ h

theorem isSome_assocLookup_dictInsert (m : List (String × String)) (k v k' : String)
    (h : (assocLookup m k').isSome = true) :
    (assocLookup (dictInsert m k v) k').isSome = true := by
  by_cases hk : k' = k
  · rw [hk, assocLookup_dictInsert_self]; rfl
  · rw [assocLookup_dictInsert_ne m k v k' hk]; exact h

/-! ### Invariants of the merge loop -/

theorem mergeFold_out_mono (tIdx : List Int) (l : List (Nat × Entry))
    (st : MergeState) (e : Entry) (h : e ∈ st.out) :
    e ∈ (l.foldl (mergeStep tIdx) st).out := by
  induction l generalizing st with
  | nil => exact h
  | cons a l ih =>
    apply ih
    unfold mergeStep
    split
    · exact List.mem_append_left _ h
    · exact List.mem_append_left _ h

theorem mergeFold_lookup_isSome_mono (tIdx : List Int) (l : List (Nat × Entry))
    (st : MergeState) (k : String) (h : (assocLookup st.renameMap k).isSome = true) :
    (assocLookup ((l.foldl (mergeStep tIdx) st)).renameMap k).isSome = true := by
  induction l generalizing st with
  | nil => exact h
  | cons a l ih =>
    apply ih
    unfold mergeStep
    split
    · exact isSome_assocLookup_dictInsert _ _ _ _ h
    · exact h

theorem mergeFold_lookup_val (tIdx : List Int) (l : List (Nat × Entry))
    (st : MergeState)
    (hst : ∀ k v, assocLookup st.renameMap k = some v →
      v ∈ st.out.map (fun x => x.tag)) :
    ∀ k v, assocLookup ((l.foldl (mergeStep tIdx) st)).renameMap k = some v →
      v ∈ ((l.foldl (mergeStep tIdx) st)).out.map (fun x => x.tag) := by
  induction l generalizing st with
  | nil => exact hst
  | cons a l ih =>
    rw [List.foldl_cons]
    apply ih
    intro k v hkv
    by_cases hc : a.2.idx ∈ tIdx
    · have hstep : mergeStep tIdx st a =
          ⟨st.baseMax + 1 + (a.1 : Int),
            dictInsert st.renameMap a.2.tag
              (intPad4 (st.baseMax + 1 + (a.1 : Int)) ++ "_" ++ namePartOf a.2.tag),
            st.out ++
              [⟨st.baseMax + 1 + (a.1 : Int), a.2.version, a.2.whenMs,
                intPad4 (st.baseMax + 1 + (a.1 : Int)) ++ "_" ++ namePartOf a.2.tag,
                a.2.breakpoints⟩]⟩ := by
        unfold mergeStep
        rw [if_pos hc]
      rw [hstep] at hkv ⊢
      by_cases hk : k = a.2.tag
      · rw [hk, assocLookup_dictInsert_self] at hkv
        have hv : v = intPad4 (st.baseMax + 1 + (a.1 : Int)) ++ "_" ++ namePartOf a.2.tag :=
          (Option.some_inj.mp hkv).symm
        rw [List.map_append, hv]
        simp
      · rw [assocLookup_dictInsert_ne _ _ _ _ hk] at hkv
        rw [List.map_append]
        exact List.mem_append_left _ (hst k v hkv)
    · have hstep : mergeStep tIdx st a = { st with out := st.out ++ [a.2] } := by
        unfold mergeStep
        rw [if_neg hc]
      rw [hstep] at hkv ⊢
      rw [List.map_append]
      exact List.mem_append_left _ (hst k v hkv)

theorem mergeFold_covers (tIdx : List Int) (l : List (Nat × Entry))
    (st : MergeState) :
    ∀ ie ∈ l, ie.2.tag ∈ ((l.foldl (mergeStep tIdx) st)).out.map (fun x => x.tag) ∨
      (assocLookup ((l.foldl (mergeStep tIdx) st)).renameMap ie.2.tag).isSome = true := by
  induction l generalizing st with
  | nil => intro ie hie; exact absurd hie (List.not_mem_nil _)
  | cons a l ih =>
    intro ie hie
    rw [List.foldl_cons]
    rcases List.mem_cons.mp hie with rfl | hmem
    · by_cases hc : ie.2.idx ∈ tIdx
      · right
        apply mergeFold_lookup_isSome_mono tIdx l (mergeStep tIdx st ie) ie.2.tag
        have hstep : (mergeStep tIdx st ie).renameMap
            = dictInsert st.renameMap ie.2.tag
              (intPad4 (st.baseMax + 1 + (ie.1 : Int)) ++ "_" ++ namePartOf ie.2.tag) := by
          unfold mergeStep
          rw [if_pos hc]
        rw [hstep, assocLookup_dictInsert_self]
        rfl
      · left
        have hstep : (mergeStep tIdx st ie).out = st.out ++ [ie.2] := by
          unfold mergeStep
          rw [if_neg hc]
        have hmem2 : ie.2 ∈ (mergeStep tIdx st ie).out := by
          rw [hstep]
          exact List.mem_append_right _ (List.mem_singleton.mpr rfl)
        exact List.mem_map_of_mem (fun x => x.tag)
          (mergeFold_out_mono tIdx l (mergeStep tIdx st ie) ie.2 hmem2)
    · exact ih (mergeStep tIdx st a) ie hmem

theorem mergeFold_keeps (tIdx : List Int) (l : List (Nat × Entry))
    (st : MergeState) :
    ∀ ie ∈ l, ie.2.idx ∉ tIdx → ie.2 ∈ ((l.foldl (mergeStep tIdx) st)).out := by
  induction l generalizing st with
  | nil => intro ie hie; exact absurd hie (List.not_mem_nil _)
  | cons a l ih =>
    intro ie hie hnc
    rw [List.foldl_cons]
    rcases List.mem_cons.mp hie with rfl | hmem
    · apply mergeFold_out_mono
      have hstep : (mergeStep tIdx st ie).out = st.out ++ [ie.2] := by
        unfold mergeStep
        rw [if_neg hnc]
      rw [hstep]
      exact List.mem_append_right _ (List.mem_singleton.mpr rfl)
    · exact ih (mergeStep tIdx st a) ie hmem hnc

theorem mergeFold_keys_source (tIdx : List Int) (l : List (Nat × Entry))
    (st : MergeState) (k : String)
    (hk : k ∈ ((l.foldl (mergeStep tIdx) st)).renameMap.map Prod.fst) :
    k ∈ st.renameMap.map Prod.fst ∨
      ∃ ie ∈ l, ie.2.idx ∈ tIdx ∧ k = ie.2.tag := by
  induction l generalizing st with
  | nil => exact Or.inl hk
  | cons a l ih =>
    rcases ih (mergeStep tIdx st a) hk with h1 | h2
    · unfold mergeStep at h1
      split at h1
      · next hc =>
        rcases keys_dictInsert_subset _ _ _ _ h1 with hin | heq
        · exact Or.inl hin
        · exact Or.inr ⟨a, List.mem_cons_self a l, hc, heq⟩
      · exact Or.inl h1
    · obtain ⟨ie, hie, hrest⟩ := h2
      exact Or.inr ⟨ie, List.mem_cons_of_mem a hie, hrest⟩

theorem mergeFold_lookup_frozen (tIdx : List Int) (l : List (Nat × Entry))
    (st : MergeState) (k : String)
    (h : k ∉ l.map (fun ie => ie.2.tag)) :
    assocLookup ((l.foldl (mergeStep tIdx) st)).renameMap k
      = assocLookup st.renameMap k := by
  induction l generalizing st with
  | nil => rfl
  | cons a l ih =>
    simp only [List.map_cons, List.mem_cons, not_or] at h
    rw [List.foldl_cons, ih (mergeStep tIdx st a) (by simpa using h.2)]
    unfold mergeStep
    split
    · exact assocLookup_dictInsert_ne _ _ _ _ h.1
    · rfl

/-! ### Enumeration and sorting helpers -/

theorem exists_enumFrom_mem {α : Type} (a : α) :
    ∀ (l : List α) (n : Nat), a ∈ l → ∃ i, (i, a) ∈ l.enumFrom n := by
  intro l
  induction l with
  | nil => intro n h; exact absurd h (List.not_mem_nil a)
  | cons b l ih =>
    intro n h
    rcases List.mem_cons.mp h with rfl | hmem
    · exact ⟨n, by rw [List.enumFrom_cons]; exact List.mem_cons_self _ _⟩
    · obtain ⟨i, hi⟩ := ih (n + 1) hmem
      exact ⟨i, by rw [List.enumFrom_cons]; exact List.mem_cons_of_mem _ hi⟩

theorem exists_enum_mem {α : Type} (a : α) (l : List α) (h : a ∈ l) :
    ∃ i, (i, a) ∈ l.enum :=
  exists_enumFrom_mem a l 0 h

theorem enum_map_snd_tag (l : List Entry) :
    l.enum.map (fun ie => ie.2.tag) = l.map (fun e => e.tag) := by
  have h1 : l.enum.map Prod.snd = l := List.enum_map_snd l
  have h2 : l.enum.map (fun ie => ie.2.tag)
      = (l.enum.map Prod.snd).map (fun e => e.tag) := by
    rw [List.map_map]
    rfl
  rw [h2, h1]

theorem mem_of_enum_mem {α : Type} {i : Nat} {e : α} {l : List α}
    (h : (i, e) ∈ l.enum) : e ∈ l := by
  have hm := List.mem_map_of_mem Prod.snd h
  rwa [List.enum_map_snd] at hm

theorem sortByIdx_perm (l : List Entry) : (sortByIdx l).Perm l :=
  List.perm_insertionSort entryLe l

theorem mem_tags_sortByIdx (l : List Entry) (t : String) :
    t ∈ (sortByIdx l).map (fun e => e.tag) ↔ t ∈ l.map (fun e => e.tag) :=
  ((sortByIdx_perm l).map (fun e => e.tag)).mem_iff

theorem mergeJournals_entries_eq (theirs ours : Journal)
    (h : featureOnly theirs ours ≠ []) :
    (mergeJournals theirs ours).1.entries
      = sortByIdx (theirs.entries ++ (mergeState theirs ours).out) := by
  unfold mergeJournals
  rw [if_neg h]

theorem mergeJournals_map_eq (theirs ours : Journal)
    (h : featureOnly theirs ours ≠ []) :
    (mergeJournals theirs ours).2 = (mergeState theirs ours).renameMap := by
  unfold mergeJournals
  rw [if_neg h]

/-- C3 (amended).  Every base tag appears in the merged journal, and
every feature tag appears either unchanged or renamed through the
rename map: the merged tag set is a superset of the base tags together
with the rename-map image of the feature tags. -/
theorem merge_tags_superset_amended (theirs ours : Journal) :
    (∀ t ∈ theirs.entries.map (fun e => e.tag),
      t ∈ (mergeJournals theirs ours).1.entries.map (fun e => e.tag)) ∧
    (∀ t ∈ ours.entries.map (fun e => e.tag),
      t ∈ (mergeJournals theirs ours).1.entries.map (fun e => e.tag) ∨
      ∃ v, assocLookup (mergeJournals theirs ours).2 t = some v ∧
        v ∈ (mergeJournals theirs ours).1.entries.map (fun e => e.tag)) := by
  by_cases hpr : featureOnly theirs ours = []
  · have h1 : (mergeJournals theirs ours).1 = theirs := by
      unfold mergeJournals
      rw [if_pos hpr]
    constructor
    · intro t ht
      rw [h1]
      exact ht
    · intro t ht
      left
      rw [h1]
      obtain ⟨e, he, hetag⟩ := List.mem_map.mp ht
      have hbt : e.tag ∈ theirs.entries.map (fun b => b.tag) := by
        by_contra hno
        have hmem : e ∈ featureOnly theirs ours :=
          List.mem_filter.mpr ⟨he, by simpa using hno⟩
        rw [hpr] at hmem
        exact absurd hmem (List.not_mem_nil e)
      rw [← hetag]
      exact hbt
  · have h1 := mergeJournals_entries_eq theirs ours hpr
    have h2 := mergeJournals_map_eq theirs ours hpr
    constructor
    · intro t ht
      rw [h1, mem_tags_sortByIdx, List.map_append]
      exact List.mem_append_left _ ht
    · intro t ht
      by_cases hb : t ∈ theirs.entries.map (fun e => e.tag)
      · left
        rw [h1, mem_tags_sortByIdx, List.map_append]
        exact List.mem_append_left _ hb
      · obtain ⟨e, he, rfl⟩ := List.mem_map.mp ht
        have hfo : e ∈ featureOnly theirs ours :=
          List.mem_filter.mpr ⟨he, by simpa using hb⟩
        obtain ⟨i, hi⟩ := exists_enum_mem e (featureOnly theirs ours) hfo
        have hcov := mergeFold_covers (theirs.entries.map (fun x => x.idx))
          ((featureOnly theirs ours).enum)
          ⟨maxIntD (theirs.entries.map (fun x => x.idx)), [], []⟩ (i, e) hi
        rcases hcov with hl | hr
        · left
          rw [h1, mem_tags_sortByIdx, List.map_append]
          exact List.mem_append_right _ hl
        · right
          obtain ⟨v, hv⟩ := Option.isSome_iff_exists.mp hr
          have hval := mergeFold_lookup_val (theirs.entries.map (fun x => x.idx))
            ((featureOnly theirs ours).enum)
            ⟨maxIntD (theirs.entries.map (fun x => x.idx)), [], []⟩
            (fun k v h => by exact absurd h (by simp [assocLookup])) e.tag v hv
          refine ⟨v, ?_, ?_⟩
          · rw [h2]
            exact hv
          · rw [h1, mem_tags_sortByIdx, List.map_append]
            exact List.mem_append_right _ hval

/-- Witness for C3 (amended) on a merge that renames a feature entry. -/
theorem merge_tags_superset_amended_witness :
    "0000_a" ∈ (mergeJournals jBase0 jFeatSameSlot).1.entries.map (fun e => e.tag) ∧
    ("0000_b" ∈ (mergeJournals jBase0 jFeatSameSlot).1.entries.map (fun e => e.tag) ∨
      ∃ v, assocLookup (mergeJournals jBase0 jFeatSameSlot).2 "0000_b" = some v ∧
        v ∈ (mergeJournals jBase0 jFeatSameSlot).1.entries.map (fun e => e.tag)) :=
  ⟨(merge_tags_superset_amended jBase0 jFeatSameSlot).1 "0000_a" (by decide),
   (merge_tags_superset_amended jBase0 jFeatSameSlot).2 "0000_b" (by decide)⟩

/-- C5 (amended).  A conflicting feature-only entry whose tag has no
underscore is renumbered without crashing, and the whole old tag is kept
as the name suffix: the rename map sends the old tag to the zero-padded
new index, an underscore, then the old tag. -/
theorem merge_no_underscore_whole_tag (theirs ours : Journal) (e : Entry)
    (hnd : ((featureOnly theirs ours).map (fun x => x.tag)).Nodup)
    (he : e ∈ featureOnly theirs ours)
    (hu : '_' ∉ e.tag.toList)
    (hc : e.idx ∈ theirs.entries.map (fun b => b.idx)) :
    ∃ n : Int, assocLookup (mergeJournals theirs ours).2 e.tag
      = some (intPad4 n ++ "_" ++ e.tag) := by
  have hpr : featureOnly theirs ours ≠ [] := List.ne_nil_of_mem he
  have h2 := mergeJournals_map_eq theirs ours hpr
  obtain ⟨i, hi⟩ := exists_enum_mem e (featureOnly theirs ours) he
  obtain ⟨l1, l2, hsplit⟩ := List.append_of_mem hi
  have hname : namePartOf e.tag = e.tag := by
    unfold namePartOf
    rw [if_neg hu]
  have hfold : mergeState theirs ours
      = l2.foldl (mergeStep (theirs.entries.map (fun b => b.idx)))
        (mergeStep (theirs.entries.map (fun b => b.idx))
          (l1.foldl (mergeStep (theirs.entries.map (fun b => b.idx)))
            ⟨maxIntD (theirs.entries.map (fun b => b.idx)), [], []⟩)
          (i, e)) := by
    unfold mergeState
    rw [hsplit, List.foldl_append, List.foldl_cons]
  have hnotin : e.tag ∉ l2.map (fun ie => ie.2.tag) := by
    have henum : ((featureOnly theirs ours).enum.map (fun ie => ie.2.tag)).Nodup := by
      rw [enum_map_snd_tag]
      exact hnd
    rw [hsplit, List.map_append] at henum
    have hr := henum.of_append_right
    rw [List.map_cons] at hr
    exact (List.nodup_cons.mp hr).1
  refine ⟨(l1.foldl (mergeStep (theirs.entries.map (fun b => b.idx)))
      ⟨maxIntD (theirs.entries.map (fun b => b.idx)), [], []⟩).baseMax + 1 + (i : Int), ?_⟩
  rw [h2, hfold,
    mergeFold_lookup_frozen (theirs.entries.map (fun b => b.idx)) l2 _ e.tag hnotin]
  have hstep : (mergeStep (theirs.entries.map (fun b => b.idx))
      (l1.foldl (mergeStep (theirs.entries.map (fun b => b.idx)))
        ⟨maxIntD (theirs.entries.map (fun b => b.idx)), [], []⟩) (i, e)).renameMap
      = dictInsert (l1.foldl (mergeStep (theirs.entries.map (fun b => b.idx)))
          ⟨maxIntD (theirs.entries.map (fun b => b.idx)), [], []⟩).renameMap e.tag
        (intPad4 ((l1.foldl (mergeStep (theirs.entries.map (fun b => b.idx)))
            ⟨maxIntD (theirs.entries.map (fun b => b.idx)), [], []⟩).baseMax + 1 + (i : Int))
          ++ "_" ++ namePartOf e.tag) := by
    unfold mergeStep
    rw [if_pos hc]
  rw [hstep, assocLookup_dictInsert_self, hname]

/-- Witness for C5 (amended): merging `jFeatBare` (tag `"abc"`) against
`jBase0` renames through the whole-tag name suffix. -/
theorem merge_no_underscore_whole_tag_witness :
    (((featureOnly jBase0 jFeatBare).map (fun x => x.tag)).Nodup ∧
      (⟨0, "7", 0, "abc", true⟩ : Entry) ∈ featureOnly jBase0 jFeatBare ∧
      '_' ∉ ("abc" : String).toList ∧
      (0 : Int) ∈ jBase0.entries.map (fun b => b.idx)) ∧
    ∃ n : Int, assocLookup (mergeJournals jBase0 jFeatBare).2 "abc"
      = some (intPad4 n ++ "_" ++ "abc") :=
  ⟨⟨by decide, by decide, by decide, by decide⟩,
    merge_no_underscore_whole_tag jBase0 jFeatBare ⟨0, "7", 0, "abc", true⟩
      (by decide) (by decide) (by decide) (by decide)⟩

/-- C6.  A feature-only entry whose index does not collide with any base
index is kept in the merged journal with its index and tag exactly
unchanged, and its tag never enters the rename map (stated for feature
journals with pairwise distinct feature-only tags, the journal
uniqueness invariant). -/
theorem merge_keeps_nonconflicting (theirs ours : Journal) (e : Entry)
    (hnd : ((featureOnly theirs ours).map (fun x => x.tag)).Nodup)
    (he : e ∈ featureOnly theirs ours)
    (hnc : e.idx ∉ theirs.entries.map (fun b => b.idx)) :
    e ∈ (mergeJournals theirs ours).1.entries ∧
    ∀ p ∈ (mergeJournals theirs ours).2, p.1 ≠ e.tag := by
  have hpr : featureOnly theirs ours ≠ [] := List.ne_nil_of_mem he
  have h1 := mergeJournals_entries_eq theirs ours hpr
  have h2 := mergeJournals_map_eq theirs ours hpr
  obtain ⟨i, hi⟩ := exists_enum_mem e (featureOnly theirs ours) he
  constructor
  · have hout := mergeFold_keeps (theirs.entries.map (fun b => b.idx))
      ((featureOnly theirs ours).enum)
      ⟨maxIntD (theirs.entries.map (fun b => b.idx)), [], []⟩ (i, e) hi hnc
    rw [h1]
    exact ((sortByIdx_perm _).mem_iff).mpr (List.mem_append_right _ hout)
  · intro p hp hpk
    have hkey : e.tag ∈ (mergeState theirs ours).renameMap.map Prod.fst := by
      rw [← hpk]
      exact List.mem_map_of_mem Prod.fst (h2 ▸ hp)
    have hkey2 : e.tag ∈ (((featureOnly theirs ours).enum).foldl
        (mergeStep (theirs.entries.map (fun b => b.idx)))
        ⟨maxIntD (theirs.entries.map (fun b => b.idx)), [], []⟩).renameMap.map Prod.fst := hkey
    rcases mergeFold_keys_source (theirs.entries.map (fun b => b.idx))
        ((featureOnly theirs ours).enum)
        ⟨maxIntD (theirs.entries.map (fun b => b.idx)), [], []⟩ e.tag hkey2 with h0 | hex
    · simp at h0
    · obtain ⟨ie, hie, hconf, htag⟩ := hex
      have hsnd : ie.2 ∈ featureOnly theirs ours := mem_of_enum_mem hie
      have heq : ie.2 = e :=
        List.inj_on_of_nodup_map hnd hsnd he htag.symm
      rw [heq] at hconf
      exact hnc hconf

/-- Witness for C6: the non-conflicting entry at index 2 of
`jFeatKeptConflict` survives the merge unchanged. -/
theorem merge_keeps_nonconflicting_witness :
    (((featureOnly jBase0 jFeatKeptConflict).map (fun x => x.tag)).Nodup ∧
      (⟨2, "7", 0, "0002_b", true⟩ : Entry) ∈ featureOnly jBase0 jFeatKeptConflict ∧
      (2 : Int) ∉ jBase0.entries.map (fun b => b.idx)) ∧
    (⟨2, "7", 0, "0002_b", true⟩ : Entry) ∈ (mergeJournals jBase0 jFeatKeptConflict).1.entries :=
  ⟨⟨by decide, by decide, by decide⟩,
    (merge_keeps_nonconflicting jBase0 jFeatKeptConflict ⟨2, "7", 0, "0002_b", true⟩
      (by decide) (by decide) (by decide)).1⟩

/-! ### Lemmas about the deduplication loop -/

theorem int_foldl_max_le_init (as : List Int) : ∀ a : Int, a ≤ as.foldl max a := by
  induction as with
  | nil => intro a; exact le_refl a
  | cons b as ih =>
    intro a
    rw [List.foldl_cons]
    exact le_trans (le_max_left a b) (ih (max a b))

theorem int_foldl_max_le_mem (as : List Int) : ∀ (a x : Int), x ∈ as → x ≤ as.foldl max a := by
  induction as with
  | nil => intro a x h; exact absurd h (List.not_mem_nil x)
  | cons b as ih =>
    intro a x h
    rw [List.foldl_cons]
    rcases List.mem_cons.mp h with rfl | hm
    · exact le_trans (le_max_right a x) (int_foldl_max_le_init as (max a x))
    · exact ih (max a b) x hm

theorem le_max?_getD (l : List Int) (x : Int) (h : x ∈ l) (d : Int) :
    x ≤ l.max?.getD d := by
  cases l with
  | nil => exact absurd h (List.not_mem_nil x)
  | cons a as =>
    show x ≤ as.foldl max a
    rcases List.mem_cons.mp h with rfl | hm
    · exact int_foldl_max_le_init as x
    · exact int_foldl_max_le_mem as a x hm

/-- A file's parsed number never exceeds the disk maximum. -/
theorem le_diskMax (files : List FileInfo) (f : FileInfo) (h : f ∈ files) :
    (f.num : Int) ≤ diskMax files :=
  le_max?_getD _ _ (List.mem_map_of_mem (fun g => (g.num : Int)) h) _

/-- The sequence of rename operations produced by renumbering the files
of `L` in order, starting from counter value `m`. -/
def opsFrom (m : Int) : List FileInfo → List RenameOp
  | [] => []
  | f :: fs => mkOp m f :: opsFrom (m + 1) fs

theorem foldl_renumberFile_maxNum (ctx : DedupCtx) (L : List FileInfo) :
    ∀ st : DedupState, (L.foldl (renumberFile ctx) st).maxNum = st.maxNum + L.length := by
  induction L with
  | nil => intro st; simp
  | cons f L ih =>
    intro st
    rw [List.foldl_cons, ih]
    show st.maxNum + 1 + (L.length : Int) = st.maxNum + ((L.length + 1 : Nat) : Int)
    push_cast
    ring

theorem foldl_renumberFile_renames (ctx : DedupCtx) (L : List FileInfo) :
    ∀ st : DedupState,
      (L.foldl (renumberFile ctx) st).renames = st.renames ++ opsFrom st.maxNum L := by
  induction L with
  | nil => intro st; simp [opsFrom]
  | cons f L ih =>
    intro st
    rw [List.foldl_cons, ih]
    show (st.renames ++ [mkOp st.maxNum f]) ++ opsFrom (st.maxNum + 1) L
      = st.renames ++ opsFrom st.maxNum (f :: L)
    rw [List.append_assoc]
    rfl

theorem foldl_renumberFile_newEntries (ctx : DedupCtx) (L : List FileInfo) :
    ∀ st : DedupState,
      (L.foldl (renumberFile ctx) st).newEntries
        = st.newEntries ++ (opsFrom st.maxNum L).map (entryOfOp ctx) := by
  induction L with
  | nil => intro st; simp [opsFrom]
  | cons f L ih =>
    intro st
    rw [List.foldl_cons, ih]
    show (st.newEntries ++ [entryOfOp ctx (mkOp st.maxNum f)])
        ++ (opsFrom (st.maxNum + 1) L).map (entryOfOp ctx)
      = st.newEntries ++ (opsFrom st.maxNum (f :: L)).map (entryOfOp ctx)
    rw [List.append_assoc]
    rfl

theorem opsFrom_shape (L : List FileInfo) :
    ∀ (m : Int), ∀ op ∈ opsFrom m L, ∃ f ∈ L,
      op.oldFile = f.file ∧ op.oldTag = f.tag ∧
      op.newTag = intPad4 op.newNum ++ "_" ++ f.name ∧
      op.newFile = op.newTag ++ ".sql" ∧ m < op.newNum := by
  induction L with
  | nil => intro m op hop; exact absurd hop (List.not_mem_nil op)
  | cons f L ih =>
    intro m op hop
    rcases List.mem_cons.mp hop with rfl | hmem
    · exact ⟨f, List.mem_cons_self f L, rfl, rfl, rfl, rfl, by
        show m < m + 1
        omega⟩
    · obtain ⟨g, hg, h1, h2, h3, h4, h5⟩ := ih (m + 1) op hmem
      exact ⟨g, List.mem_cons_of_mem f hg, h1, h2, h3, h4, by omega⟩

theorem opsFrom_exists (L : List FileInfo) :
    ∀ (m : Int), ∀ f ∈ L, ∃ op ∈ opsFrom m L,
      op.oldFile = f.file ∧ m < op.newNum ∧
      op.newTag = intPad4 op.newNum ++ "_" ++ f.name ∧
      op.newFile = op.newTag ++ ".sql" := by
  induction L with
  | nil => intro m f hf; exact absurd hf (List.not_mem_nil f)
  | cons g L ih =>
    intro m f hf
    rcases List.mem_cons.mp hf with rfl | hmem
    · exact ⟨mkOp m f, List.mem_cons_self _ _, rfl, by show m < m + 1; omega, rfl, rfl⟩
    · obtain ⟨op, hop, h1, h2, h3, h4⟩ := ih (m + 1) f hmem
      exact ⟨op, List.mem_cons_of_mem _ hop, h1, by omega, h3, h4⟩

theorem opsFrom_newNum_gt (L : List FileInfo) :
    ∀ (m : Int), ∀ op ∈ opsFrom m L, m < op.newNum := by
  intro m op hop
  obtain ⟨f, _, _, _, _, _, h⟩ := opsFrom_shape L m op hop
  exact h

theorem opsFrom_newNum_nodup (L : List FileInfo) :
    ∀ m : Int, ((opsFrom m L).map (fun o => o.newNum)).Nodup := by
  induction L with
  | nil => intro m; simp [opsFrom]
  | cons f L ih =>
    intro m
    rw [opsFrom, List.map_cons, List.nodup_cons]
    refine ⟨?_, ih (m + 1)⟩
    intro hmem
    obtain ⟨op, hop, hval⟩ := List.mem_map.mp hmem
    have := opsFrom_newNum_gt L (m + 1) op hop
    rw [hval] at this
    show False
    have : (mkOp m f).newNum = m + 1 := rfl
    omega

theorem dedupFold_flatten (ctx : DedupCtx) (thr : Int) (files : List FileInfo)
    (jt : List String) :
    ∀ (nums : List Nat) (st : DedupState),
      nums.foldl (processNum ctx thr files jt) st
        = (nums.flatMap (renumberList thr files jt)).foldl (renumberFile ctx) st := by
  intro nums
  induction nums with
  | nil => intro st; rfl
  | cons n ns ih =>
    intro st
    rw [List.foldl_cons, ih, List.flatMap_cons, List.foldl_append]
    rfl

theorem mem_byNumber (files : List FileInfo) (n : Nat) (f : FileInfo) :
    f ∈ byNumber files n ↔ f ∈ files ∧ f.num = n := by
  unfold byNumber
  rw [List.mem_filter]
  simp

theorem renumberList_subset (thr : Int) (files : List FileInfo) (jt : List String)
    (n : Nat) : ∀ f ∈ renumberList thr files jt n, f ∈ byNumber files n := by
  intro f hf
  unfold renumberList at hf
  split at hf
  · exact absurd hf (List.not_mem_nil f)
  · split at hf
    · split at hf
      · exact List.mem_of_mem_filter hf
      · split at hf
        · have h1 : f ∈ sortByFile ((byNumber files n).filter
              (fun g => decide (g.tag ∉ jt))) := List.drop_subset 1 _ hf
          have h2 := (List.perm_insertionSort fileLe _).mem_iff.mp h1
          exact List.mem_of_mem_filter h2
        · exact absurd hf (List.not_mem_nil f)
    · exact absurd hf (List.not_mem_nil f)

theorem mem_numsSorted (files : List FileInfo) (n : Nat)
    (h : ∃ f ∈ files, f.num = n) : n ∈ numsSorted files := by
  obtain ⟨f, hf, hn⟩ := h
  unfold numsSorted sortNats
  apply (List.perm_insertionSort natLe _).mem_iff.mpr
  rw [List.mem_dedup]
  rw [← hn]
  exact List.mem_map_of_mem (fun g => g.num) hf

/-- In the none-registered case the loop renumbers exactly the tail of
the filename-sorted group. -/
theorem renumberList_none_registered (thr : Int) (files : List FileInfo)
    (jt : List String) (n : Nat) (first : FileInfo) (rest : List FileInfo)
    (hthr : thr ≤ (n : Int))
    (hsort : sortByFile (byNumber files n) = first :: rest)
    (hrest : rest ≠ [])
    (hreg : ∀ f ∈ byNumber files n, f.tag ∉ jt) :
    renumberList thr files jt n = rest := by
  have hglen : 1 < (byNumber files n).length := by
    have hlen2 : (sortByFile (byNumber files n)).length = (byNumber files n).length :=
      (List.perm_insertionSort fileLe _).length_eq
    rw [hsort] at hlen2
    cases rest with
    | nil => exact absurd rfl hrest
    | cons r rs =>
      rw [← hlen2]
      simp
  have hfilterIn : (byNumber files n).filter (fun f => decide (f.tag ∈ jt)) = [] := by
    rw [List.filter_eq_nil_iff]
    intro f hf
    simpa using hreg f hf
  have hfilterNot : (byNumber files n).filter (fun f => decide (f.tag ∉ jt))
      = byNumber files n :=
    List.filter_eq_self.mpr (fun f hf => by simpa using hreg f hf)
  unfold renumberList
  rw [if_neg (not_lt.mpr hthr), if_pos hglen, hfilterIn, hfilterNot,
    if_neg (fun hand => hand.2 rfl), if_pos hglen, hsort]
  rfl

theorem parsedFiles_sql_nonempty (listing : List String)
    (h : parsedFiles listing ≠ []) :
    sortStrings (listing.filter isSqlName) ≠ [] := by
  intro h0
  apply h
  unfold parsedFiles
  rw [h0]
  rfl

theorem renumberRun_renames_eq (j : Journal) (listing : List String)
    (ctx : DedupCtx) (hne : sortStrings (listing.filter isSqlName) ≠ []) :
    (renumberRun (some j) listing ctx).renames = (dedupState j listing ctx).renames := by
  simp only [renumberRun, if_neg hne]

theorem dedupState_renames (j : Journal) (listing : List String) (ctx : DedupCtx) :
    (dedupState j listing ctx).renames
      = opsFrom (diskMax (parsedFiles listing))
          ((numsSorted (parsedFiles listing)).flatMap
            (renumberList (recentThreshold j (parsedFiles listing))
              (parsedFiles listing) (journalTagsOf j))) := by
  unfold dedupState
  rw [dedupFold_flatten, foldl_renumberFile_renames]
  rfl

/-- C8.  At an index in the recent window holding two or more files
none of which is registered in the journal, the deduplicator keeps the
alphabetically first file unrenumbered, renames every other file of the
group to a fresh index above the disk maximum, and all new indices of
the pass are pairwise distinct. -/
theorem dedup_keep_first_renumber_rest (j : Journal) (listing : List String)
    (ctx : DedupCtx) (n : Nat) (first : FileInfo) (rest : List FileInfo)
    (hnd : ((parsedFiles listing).map (fun f => f.file)).Nodup)
    (hthr : recentThreshold j (parsedFiles listing) ≤ (n : Int))
    (hsort : sortByFile (byNumber (parsedFiles listing) n) = first :: rest)
    (hrest : rest ≠ [])
    (hreg : ∀ f ∈ byNumber (parsedFiles listing) n, f.tag ∉ journalTagsOf j) :
    (∀ op ∈ (renumberRun (some j) listing ctx).renames, op.oldFile ≠ first.file) ∧
    (∀ f ∈ rest, ∃ op ∈ (renumberRun (some j) listing ctx).renames,
      op.oldFile = f.file ∧ diskMax (parsedFiles listing) < op.newNum ∧
      op.newTag = intPad4 op.newNum ++ "_" ++ f.name ∧
      op.newFile = op.newTag ++ ".sql") ∧
    ((renumberRun (some j) listing ctx).renames.map (fun o => o.newNum)).Nodup := by
  have hfirstSort : first ∈ sortByFile (byNumber (parsedFiles listing) n) := by
    rw [hsort]
    exact List.mem_cons_self first rest
  have hfirstG : first ∈ byNumber (parsedFiles listing) n :=
    (List.perm_insertionSort fileLe _).mem_iff.mp hfirstSort
  have hfirstFiles : first ∈ parsedFiles listing := ((mem_byNumber _ _ _).mp hfirstG).1
  have hfirstNum : first.num = n := ((mem_byNumber _ _ _).mp hfirstG).2
  have hne := parsedFiles_sql_nonempty listing (List.ne_nil_of_mem hfirstFiles)
  have hrun : (renumberRun (some j) listing ctx).renames
      = opsFrom (diskMax (parsedFiles listing))
          ((numsSorted (parsedFiles listing)).flatMap
            (renumberList (recentThreshold j (parsedFiles listing))
              (parsedFiles listing) (journalTagsOf j))) := by
    rw [renumberRun_renames_eq j listing ctx hne, dedupState_renames]
  have hRL := renumberList_none_registered (recentThreshold j (parsedFiles listing))
    (parsedFiles listing) (journalTagsOf j) n first rest hthr hsort hrest hreg
  have hnmem : n ∈ numsSorted (parsedFiles listing) :=
    mem_numsSorted _ n ⟨first, hfirstFiles, hfirstNum⟩
  refine ⟨?_, ?_, ?_⟩
  · intro op hop heq
    rw [hrun] at hop
    obtain ⟨f, hfall, hof, _, _, _, _⟩ := opsFrom_shape _ _ op hop
    obtain ⟨n2, hn2, hfn2⟩ := List.mem_flatMap.mp hfall
    have hfg : f ∈ byNumber (parsedFiles listing) n2 :=
      renumberList_subset _ _ _ _ f hfn2
    have hfFiles : f ∈ parsedFiles listing := ((mem_byNumber _ _ _).mp hfg).1
    have hfNum : f.num = n2 := ((mem_byNumber _ _ _).mp hfg).2
    rw [hof] at heq
    have hfe : f = first := List.inj_on_of_nodup_map hnd hfFiles hfirstFiles heq
    by_cases hnn : n2 = n
    · rw [hnn, hRL, hfe] at hfn2
      have hsub : (byNumber (parsedFiles listing) n).Sublist (parsedFiles listing) :=
        List.filter_sublist _
      have hsubm : ((byNumber (parsedFiles listing) n).map (fun f => f.file)).Sublist
          ((parsedFiles listing).map (fun f => f.file)) :=
        hsub.map (fun f => f.file)
      have hnodupg : ((byNumber (parsedFiles listing) n).map (fun f => f.file)).Nodup :=
        hnd.sublist hsubm
      have hnodups : ((sortByFile (byNumber (parsedFiles listing) n)).map
          (fun f => f.file)).Nodup :=
        (((List.perm_insertionSort fileLe _).map (fun f => f.file)).nodup_iff).mpr hnodupg
      rw [hsort, List.map_cons, List.nodup_cons] at hnodups
      exact hnodups.1 (List.mem_map_of_mem (fun g => g.file) hfn2)
    · apply hnn
      rw [← hfNum, hfe, hfirstNum]
  · intro f hf
    have hfall : f ∈ (numsSorted (parsedFiles listing)).flatMap
        (renumberList (recentThreshold j (parsedFiles listing))
          (parsedFiles listing) (journalTagsOf j)) :=
      List.mem_flatMap.mpr ⟨n, hnmem, by rw [hRL]; exact hf⟩
    obtain ⟨op, hop, h1, h2, h3, h4⟩ :=
      opsFrom_exists _ (diskMax (parsedFiles listing)) f hfall
    exact ⟨op, by rw [hrun]; exact hop, h1, h2, h3, h4⟩
  · rw [hrun]
    exact opsFrom_newNum_nodup _ _

/-- Witness for C8: two files `0005_a.sql`, `0005_b.sql`, neither
registered in the empty journal — `0005_a.sql` is kept, `0005_b.sql`
is renumbered above the disk maximum 5. -/
theorem dedup_keep_first_renumber_rest_witness :
    (((parsedFiles ["0005_a.sql", "0005_b.sql"]).map (fun f => f.file)).Nodup ∧
      recentThreshold jEmpty (parsedFiles ["0005_a.sql", "0005_b.sql"]) ≤ (5 : Int) ∧
      sortByFile (byNumber (parsedFiles ["0005_a.sql", "0005_b.sql"]) 5)
        = [⟨"0005_a.sql", "0005_a", "a", 5⟩, ⟨"0005_b.sql", "0005_b", "b", 5⟩]) ∧
    ((∀ op ∈ (renumberRun (some jEmpty) ["0005_a.sql", "0005_b.sql"] ctxPlain).renames,
        op.oldFile ≠ "0005_a.sql") ∧
      (∀ f ∈ [(⟨"0005_b.sql", "0005_b", "b", 5⟩ : FileInfo)],
        ∃ op ∈ (renumberRun (some jEmpty) ["0005_a.sql", "0005_b.sql"] ctxPlain).renames,
          op.oldFile = f.file ∧
          diskMax (parsedFiles ["0005_a.sql", "0005_b.sql"]) < op.newNum ∧
          op.newTag = intPad4 op.newNum ++ "_" ++ f.name ∧
          op.newFile = op.newTag ++ ".sql") ∧
      ((renumberRun (some jEmpty) ["0005_a.sql", "0005_b.sql"] ctxPlain).renames.map
        (fun o => o.newNum)).Nodup) :=
  ⟨⟨by decide, by decide, by decide⟩,
    dedup_keep_first_renumber_rest jEmpty ["0005_a.sql", "0005_b.sql"] ctxPlain 5
      ⟨"0005_a.sql", "0005_a", "a", 5⟩ [⟨"0005_b.sql", "0005_b", "b", 5⟩]
      (by decide) (by decide) (by decide) (by decide) (by decide)⟩

/-! ### Decimal formatting facts used to separate new tags from old ones -/

theorem digitChar_ne_underscore (k : Nat) : digitChar k ≠ '_' := by
  by_cases h : k < 10
  · have hb : ∀ m : Fin 10, digitChar m.val ≠ '_' := by decide
    exact hb ⟨k, h⟩
  · obtain ⟨m, rfl⟩ : ∃ m, k = m + 10 := ⟨k - 10, by omega⟩
    show ('*' : Char) ≠ '_'
    decide

theorem digitChar_val (k : Nat) (h : k < 10) : (digitChar k).toNat - 48 = k := by
  have hb : ∀ m : Fin 10, (digitChar m.val).toNat - 48 = m.val := by decide
  exact hb ⟨k, h⟩

theorem digitsToNat_append_singleton (ds : List Char) (c : Char) :
    digitsToNat (ds ++ [c]) = 10 * digitsToNat ds + (c.toNat - 48) := by
  unfold digitsToNat
  rw [List.foldl_append]
  show (ds.foldl (fun a c => a * 10 + (c.toNat - 48)) 0) * 10 + (c.toNat - 48) = _
  omega

theorem digitsToNat_replicate_zero (k : Nat) (ds : List Char) :
    digitsToNat (List.replicate k '0' ++ ds) = digitsToNat ds := by
  unfold digitsToNat
  rw [List.foldl_append]
  have hz : (List.replicate k '0').foldl (fun a c => a * 10 + (c.toNat - 48)) 0 = 0 := by
    induction k with
    | zero => rfl
    | succ k ih =>
      rw [List.replicate_succ, List.foldl_cons]
      exact ih
  rw [hz]

theorem natToDigitsAux_spec : ∀ (fuel n : Nat) (acc : List Char), n ≤ fuel →
    ∃ ds, natToDigitsAux n fuel acc = ds ++ acc ∧ ds ≠ [] ∧
      (∀ c ∈ ds, c ≠ '_') ∧ digitsToNat ds = n := by
  intro fuel
  induction fuel with
  | zero =>
    intro n acc hn
    have h0 : n = 0 := Nat.le_zero.mp hn
    subst h0
    refine ⟨[digitChar 0], rfl, by simp, ?_, by decide⟩
    intro c hc
    rw [List.mem_singleton] at hc
    rw [hc]
    exact digitChar_ne_underscore 0
  | succ fuel ih =>
    intro n acc hn
    by_cases h10 : n < 10
    · refine ⟨[digitChar n], ?_, by simp, ?_, ?_⟩
      · show natToDigitsAux n (fuel + 1) acc = [digitChar n] ++ acc
        unfold natToDigitsAux
        rw [if_pos h10]
        rfl
      · intro c hc
        rw [List.mem_singleton] at hc
        rw [hc]
        exact digitChar_ne_underscore n
      · show digitsToNat [digitChar n] = n
        unfold digitsToNat
        rw [List.foldl_cons, List.foldl_nil]
        rw [Nat.zero_mul, Nat.zero_add]
        exact digitChar_val n h10
    · have hpos : n / 10 < n := Nat.div_lt_self (by omega) (by omega)
      have hrec : n / 10 ≤ fuel := by omega
      obtain ⟨ds, hds, hne, hdig, hval⟩ := ih (n / 10) (digitChar (n % 10) :: acc) hrec
      refine ⟨ds ++ [digitChar (n % 10)], ?_, by simp, ?_, ?_⟩
      · show natToDigitsAux n (fuel + 1) acc = (ds ++ [digitChar (n % 10)]) ++ acc
        unfold natToDigitsAux
        rw [if_neg h10, hds, List.append_assoc]
        rfl
      · intro c hc
        rcases List.mem_append.mp hc with hc1 | hc2
        · exact hdig c hc1
        · rw [List.mem_singleton] at hc2
          rw [hc2]
          exact digitChar_ne_underscore (n % 10)
      · rw [digitsToNat_append_singleton, hval,
          digitChar_val (n % 10) (Nat.mod_lt n (by omega))]
        have hdm := Nat.div_add_mod n 10
        omega

theorem natToDigits_spec (n : Nat) :
    natToDigits n ≠ [] ∧ (∀ c ∈ natToDigits n, c ≠ '_') ∧
      digitsToNat (natToDigits n) = n := by
  obtain ⟨ds, hds, h1, h2, h3⟩ := natToDigitsAux_spec n n [] (le_refl n)
  unfold natToDigits
  rw [hds, List.append_nil]
  exact ⟨h1, h2, h3⟩

/-- The digit-list decomposition of `f"{nn:04d}"` for a non-negative
integer: nonempty, free of underscores, and its value is `nn`. -/
theorem intPad4_toList_spec (nn : Int) (h : 0 ≤ nn) :
    (intPad4 nn).toList ≠ [] ∧ (∀ c ∈ (intPad4 nn).toList, c ≠ '_') ∧
      digitsToNat ((intPad4 nn).toList) = nn.toNat := by
  have hrw : (intPad4 nn).toList
      = List.replicate (4 - (natRepr nn.toNat).length) '0' ++ natToDigits nn.toNat := by
    unfold intPad4
    rw [if_neg (by omega)]
    rfl
  obtain ⟨h1, h2, h3⟩ := natToDigits_spec nn.toNat
  rw [hrw]
  refine ⟨by simp [h1], ?_, ?_⟩
  · intro c hc
    rcases List.mem_append.mp hc with hc1 | hc2
    · rw [List.eq_of_mem_replicate hc1]
      decide
    · exact h2 c hc2
  · rw [digitsToNat_replicate_zero]
    exact h3

theorem underscore_split_unique : ∀ (d1 d2 r1 r2 : List Char),
    (∀ c ∈ d1, c ≠ '_') → (∀ c ∈ d2, c ≠ '_') →
    d1 ++ '_' :: r1 = d2 ++ '_' :: r2 → d1 = d2 ∧ r1 = r2 := by
  intro d1
  induction d1 with
  | nil =>
    intro d2 r1 r2 _ h2 heq
    cases d2 with
    | nil =>
      rw [List.nil_append, List.nil_append] at heq
      exact ⟨rfl, (List.cons.injEq _ _ _ _ ▸ heq).2⟩
    | cons e d2 =>
      rw [List.nil_append, List.cons_append] at heq
      have he : '_' = e := (List.cons.injEq _ _ _ _ ▸ heq).1
      exact absurd he.symm (h2 e (List.mem_cons_self e d2))
  | cons c d1 ih =>
    intro d2 r1 r2 h1 h2 heq
    cases d2 with
    | nil =>
      rw [List.cons_append, List.nil_append] at heq
      have hc : c = '_' := (List.cons.injEq _ _ _ _ ▸ heq).1
      exact absurd hc (h1 c (List.mem_cons_self c d1))
    | cons e d2 =>
      rw [List.cons_append, List.cons_append] at heq
      have hce : c = e ∧ d1 ++ '_' :: r1 = d2 ++ '_' :: r2 :=
        ⟨(List.cons.injEq _ _ _ _ ▸ heq).1, (List.cons.injEq _ _ _ _ ▸ heq).2⟩
      have hrec := ih d2 r1 r2
        (fun x hx => h1 x (List.mem_cons_of_mem c hx))
        (fun x hx => h2 x (List.mem_cons_of_mem e hx)) hce.2
      exact ⟨by rw [hce.1, hrec.1], hrec.2⟩

/-- What a successful parse guarantees: the tag splits as a nonempty
run of digit characters, an underscore, and the name, and the parsed
number is the value of the digit run. -/
theorem parseSqlFile_spec (s : String) (fi : FileInfo)
    (h : parseSqlFile s = some fi) :
    ∃ digits nameCs, fi.tag.toList = digits ++ '_' :: nameCs ∧
      digits ≠ [] ∧ (∀ c ∈ digits, c ≠ '_') ∧ digitsToNat digits = fi.num := by
  unfold parseSqlFile at h
  split at h
  · next hcond =>
    split at h
    · exact absurd h (by simp)
    · next c cs nameCs htw hdw =>
      split at h
      · exact absurd h (by simp)
      · next hnc =>
        have hfi := Option.some_inj.mp h
        refine ⟨(s.toList.take (s.toList.length - 4)).takeWhile Char.isDigit,
          nameCs, ?_, ?_, ?_, ?_⟩
        · rw [← hfi]
          show (s.toList.take (s.toList.length - 4))
            = (s.toList.take (s.toList.length - 4)).takeWhile Char.isDigit
              ++ '_' :: nameCs
          rw [← hdw]
          exact (List.takeWhile_append_dropWhile Char.isDigit _).symm
        · rw [htw]
          simp
        · intro x hx
          have hxd := List.mem_takeWhile_imp hx
          intro hxe
          rw [hxe] at hxd
          exact absurd hxd (by decide)
        · rw [← hfi]
    · exact absurd h (by simp)
  · exact absurd h (by simp)

/-- A tag parsed from disk can never equal a rebuilt tag whose numeric
prefix is strictly larger than the parsed number. -/
theorem parsed_tag_ne_newTag (s : String) (fi : FileInfo)
    (hp : parseSqlFile s = some fi) (nn : Int) (hlt : (fi.num : Int) < nn)
    (nm : String) : fi.tag ≠ intPad4 nn ++ "_" ++ nm := by
  intro heq
  have h0 : (0 : Int) ≤ nn := by omega
  obtain ⟨digits, nameCs, htag, hne, hdig, hval⟩ := parseSqlFile_spec s fi hp
  obtain ⟨hdsne, hdsdig, hdsval⟩ := intPad4_toList_spec nn h0
  have hlist : digits ++ '_' :: nameCs = (intPad4 nn).toList ++ '_' :: nm.toList := by
    rw [← htag, heq]
    show ((intPad4 nn ++ "_") ++ nm).toList = _
    show ((intPad4 nn).toList ++ ['_']) ++ nm.toList = _
    rw [List.append_assoc]
    rfl
  have hsplit := underscore_split_unique digits ((intPad4 nn).toList)
    nameCs nm.toList hdig hdsdig hlist
  rw [hsplit.1, hdsval] at hval
  omega

theorem renumberRun_newEntries_eq (j : Journal) (listing : List String)
    (ctx : DedupCtx) (hne : sortStrings (listing.filter isSqlName) ≠ []) :
    (renumberRun (some j) listing ctx).newEntries
      = (dedupState j listing ctx).newEntries := by
  simp only [renumberRun, if_neg hne]

theorem renumberRun_finalJournal_eq (j : Journal) (listing : List String)
    (ctx : DedupCtx) (hne : sortStrings (listing.filter isSqlName) ≠ []) :
    (renumberRun (some j) listing ctx).finalJournal
      = some (if (dedupState j listing ctx).newEntries = [] then j
          else { version := j.version, dialect := j.dialect,
                 entries := sortByIdx
                   (j.entries ++ (dedupState j listing ctx).newEntries) }) := by
  simp only [renumberRun, if_neg hne]

theorem dedupState_newEntries (j : Journal) (listing : List String) (ctx : DedupCtx) :
    (dedupState j listing ctx).newEntries
      = (opsFrom (diskMax (parsedFiles listing))
          ((numsSorted (parsedFiles listing)).flatMap
            (renumberList (recentThreshold j (parsedFiles listing))
              (parsedFiles listing) (journalTagsOf j)))).map (entryOfOp ctx) := by
  unfold dedupState
  rw [dedupFold_flatten, foldl_renumberFile_newEntries]
  rfl

/-- C10.  New journal entries are appended only for renumbered files
(each appended entry carries the new tag and new index of one rename
operation), and in the none-registered case the kept alphabetically
first file still has no journal entry after the pass. -/
theorem dedup_kept_file_gains_no_entry (j : Journal) (listing : List String)
    (ctx : DedupCtx) (n : Nat) (first : FileInfo) (rest : List FileInfo)
    (_hnd : ((parsedFiles listing).map (fun f => f.file)).Nodup)
    (_hthr : recentThreshold j (parsedFiles listing) ≤ (n : Int))
    (hsort : sortByFile (byNumber (parsedFiles listing) n) = first :: rest)
    (_hrest : rest ≠ [])
    (hreg : ∀ f ∈ byNumber (parsedFiles listing) n, f.tag ∉ journalTagsOf j) :
    (∀ e ∈ (renumberRun (some j) listing ctx).newEntries,
      ∃ op ∈ (renumberRun (some j) listing ctx).renames,
        e.tag = op.newTag ∧ e.idx = op.newNum) ∧
    (∀ J, (renumberRun (some j) listing ctx).finalJournal = some J →
      first.tag ∉ J.entries.map (fun e => e.tag)) := by
  have hfirstSort : first ∈ sortByFile (byNumber (parsedFiles listing) n) := by
    rw [hsort]
    exact List.mem_cons_self first rest
  have hfirstG : first ∈ byNumber (parsedFiles listing) n :=
    (List.perm_insertionSort fileLe _).mem_iff.mp hfirstSort
  have hfirstFiles : first ∈ parsedFiles listing := ((mem_byNumber _ _ _).mp hfirstG).1
  have hne := parsedFiles_sql_nonempty listing (List.ne_nil_of_mem hfirstFiles)
  have hfirstTagNew : ∀ op ∈ opsFrom (diskMax (parsedFiles listing))
      ((numsSorted (parsedFiles listing)).flatMap
        (renumberList (recentThreshold j (parsedFiles listing))
          (parsedFiles listing) (journalTagsOf j))), first.tag ≠ op.newTag := by
    intro op hop
    obtain ⟨f, hfall, _, _, hnt, _, hgt⟩ := opsFrom_shape _ _ op hop
    obtain ⟨sfile, _, hsparse⟩ := List.mem_filterMap.mp hfirstFiles
    have hmax : (first.num : Int) ≤ diskMax (parsedFiles listing) :=
      le_diskMax _ first hfirstFiles
    rw [hnt]
    exact parsed_tag_ne_newTag sfile first hsparse op.newNum (by omega) f.name
  constructor
  · intro e he
    rw [renumberRun_newEntries_eq j listing ctx hne, dedupState_newEntries] at he
    obtain ⟨op, hop, hoe⟩ := List.mem_map.mp he
    refine ⟨op, ?_, ?_, ?_⟩
    · rw [renumberRun_renames_eq j listing ctx hne, dedupState_renames]
      exact hop
    · rw [← hoe]
      rfl
    · rw [← hoe]
      rfl
  · intro J hJ
    rw [renumberRun_finalJournal_eq j listing ctx hne] at hJ
    have hJ2 := Option.some_inj.mp hJ
    by_cases hemp : (dedupState j listing ctx).newEntries = []
    · rw [if_pos hemp] at hJ2
      rw [← hJ2]
      exact hreg first hfirstG
    · rw [if_neg hemp] at hJ2
      rw [← hJ2]
      intro hmem
      show False
      rw [show ({ version := j.version, dialect := j.dialect,
                  entries := sortByIdx
                    (j.entries ++ (dedupState j listing ctx).newEntries) } :
          Journal).entries = sortByIdx (j.entries ++ (dedupState j listing ctx).newEntries)
        from rfl] at hmem
      rw [mem_tags_sortByIdx, List.map_append, List.mem_append] at hmem
      rcases hmem with hmem1 | hmem2
      · exact hreg first hfirstG hmem1
      · obtain ⟨e, he, hetag⟩ := List.mem_map.mp hmem2
        rw [dedupState_newEntries] at he
        obtain ⟨op, hop, hoe⟩ := List.mem_map.mp he
        apply hfirstTagNew op hop
        rw [← hetag, ← hoe]
        rfl

/-- Witness for C10 on the two-file example: the kept `0005_a` never
appears in the rewritten journal. -/
theorem dedup_kept_file_gains_no_entry_witness :
    ((renumberRun (some jEmpty) ["0005_a.sql", "0005_b.sql"] ctxPlain).finalJournal
        = some ⟨"7", "postgresql", [⟨6, "7", 0, "0006_b", true⟩]⟩) ∧
    "0005_a" ∉ (⟨"7", "postgresql", [⟨6, "7", 0, "0006_b", true⟩]⟩ : Journal).entries.map
      (fun e => e.tag) :=
  ⟨by decide,
    (dedup_kept_file_gains_no_entry jEmpty ["0005_a.sql", "0005_b.sql"] ctxPlain 5
      ⟨"0005_a.sql", "0005_a", "a", 5⟩ [⟨"0005_b.sql", "0005_b", "b", 5⟩]
      (by decide) (by decide) (by decide) (by decide) (by decide)).2
      ⟨"7", "postgresql", [⟨6, "7", 0, "0006_b", true⟩]⟩ (by decide)⟩

end Drizzle
